import Mathlib

set_option autoImplicit false
set_option maxRecDepth 4096

/-!
Verification development for the repo-context-packager analysis pipeline.

The definitions below are a shallow embedding of the TypeScript source:
pure functions become Lean functions over `List Char` / `String` / `Nat`,
filesystem-dependent code takes the filesystem's answers (existence, stat
results, file contents) as explicit parameters, and JavaScript truthiness
of optional numeric options is modelled by treating `some 0` like `none`.
-/
/-- JavaScript `Math.round (a / b)` for natural `a` and positive `b`:
round-half-up, computed exactly over the integers as
`⌊a / b + 1 / 2⌋ = (2 * a + b) / (2 * b)`. -/
def jsRoundDiv (a b : Nat) : Nat := (2 * a + b) / (2 * b)

/-- `calculateTokens` from `src/unnamed/part_011` lines 185-187 (the same
expression is inlined at `src/src/packager.ts` lines 399 and 464-466):
`Math.round(content.length / 4)`. -/
def calculateTokens (content : List Char) : Nat := jsRoundDiv content.length 4

/-! ### ContentReader: oversized-text truncation (`readFileContents`,
`src/unnamed/part_011` lines 144-151 and `src/src/utils.ts` lines 72-79) -/
/-- The fixed truncation ceiling from the source: `16 * 1024` characters. -/
def maxContentSize : Nat := 16 * 1024

/-- Index of the last occurrence of `'\n'` in `l`, modelling
`truncated.lastIndexOf('\n')`; `none` models the JS return value `-1`. -/
def lastNewlinePos : List Char → Option Nat
  | [] => none
  | c :: cs =>
    match lastNewlinePos cs with
    | some i => some (i + 1)
    | none => if c = '\n' then some 0 else none

/-- The truncation marker appended by `readFileContents`:
`"\n\n... [File truncated: showing first S characters of N]"`. -/
def truncationMarker (shown orig : Nat) : List Char :=
  ("\n\n... [File truncated: showing first " ++ Nat.repr shown
    ++ " characters of " ++ Nat.repr orig ++ "]").data

/-- The oversized-text branch of `readFileContents`: content longer than
16 KiB is cut back to the last newline of its 16 KiB head when that
newline sits at a strictly positive index (`lastNewline > 0` in the
source), and the marker is appended; shorter content is returned as is. -/
def truncateOversized (content : List Char) : List Char :=
  if content.length > maxContentSize then
    let truncated := content.take maxContentSize
    let finalContent :=
      match lastNewlinePos truncated with
      | some i => if 0 < i then truncated.take i else truncated
      | none => truncated
    finalContent ++ truncationMarker finalContent.length content.length
  else content

/-- Modelled from the spec sentence for C5: the kept text is "the prefix
cut at the last full line boundary at or before the 16 KiB ceiling" — any
last newline in the 16 KiB head, including one at index `0`, is a cut
point (when no newline exists the head is kept whole). -/
def specCutAtLastBoundary (l : List Char) : List Char :=
  match lastNewlinePos l with
  | some i => l.take i
  | none => l

/-- Modelled from the spec sentence for C5: truncation according to the
claim's wording, built from `specCutAtLastBoundary`. -/
def specTruncateOversized (content : List Char) : List Char :=
  if content.length > maxContentSize then
    let f := specCutAtLastBoundary (content.take maxContentSize)
    f ++ truncationMarker f.length content.length
  else content

/-- The concrete C5 counterexample input: a newline followed by 16384
letters, 16385 characters in total. -/
def c5Input : List Char := '\n' :: List.replicate maxContentSize 'a'

/-! ### FileDiscovery: recency filter (`isFileRecentlyModified` and the
filter stage of `collectFiles`, `src/unnamed/part_011` lines 93-123 and
189-203) -/
/-- Milliseconds per day; the JS calendar cutoff `setDate(getDate() - days)`
is modelled as the instant `nowMs - days * msPerDay`. -/
def msPerDay : Int := 86400000

/-- `isFileRecentlyModified` from `src/unnamed/part_011` lines 189-203:
`stat` is the filesystem's answer for the file (`none` models a throwing
`fs.statSync`), the pair being the file's `mtime` and `ctime` in
milliseconds; the later of the two is compared against the cutoff with
`>=`. -/
def isFileRecentlyModified (stat : Option (Int × Int)) (nowMs : Int) (days : Nat) : Bool :=
  match stat with
  | none => false
  | some (mtime, ctime) => decide (max mtime ctime ≥ nowMs - (days : Int) * msPerDay)

/-- The recency stage of `collectFiles` (`src/unnamed/part_011` lines
109-120): when a recent-days window is set and non-zero (JS truthiness of
`recentDays`), keep exactly the files `isFileRecentlyModified` accepts. -/
def filterRecent (recentDays : Option Nat) (stat : String → Option (Int × Int))
    (nowMs : Int) (files : List String) : List String :=
  match recentDays with
  | none => files
  | some d =>
    if d = 0 then files
    else files.filter (fun f => isFileRecentlyModified (stat f) nowMs d)

/-! ### Data model and path helpers -/
/-- `FileInfo` from the types module: one admitted file record. -/
structure FileInfo where
  path : String
  size : Nat
  lines : Nat
  content : List Char
deriving Repr, DecidableEq

/-- Index of the last occurrence of character `t`, modelling JS
`lastIndexOf` (`none` models `-1`). -/
def lastIndexOfChar (t : Char) : List Char → Option Nat
  | [] => none
  | c :: cs =>
    match lastIndexOfChar t cs with
    | some i => some (i + 1)
    | none => if c = t then some 0 else none

/-- Model of Node `path.basename` for POSIX-style paths: the part after
the last `'/'`. -/
def basenameChars (p : List Char) : List Char :=
  match lastIndexOfChar '/' p with
  | some i => p.drop (i + 1)
  | none => p

/-- Model of Node `path.dirname` for POSIX-style paths: the part before
the last `'/'`; `"."` when there is no slash, `"/"` for a root child. -/
def dirname (p : String) : String :=
  match lastIndexOfChar '/' p.data with
  | some 0 => "/"
  | some i => String.mk (p.data.take i)
  | none => "."

/-- Model of Node `path.extname`: the suffix of the basename from its last
dot, empty for dotfiles and names without a dot. -/
def extname (p : String) : String :=
  match lastIndexOfChar '.' (basenameChars p.data) with
  | some 0 => ""
  | some i => String.mk ((basenameChars p.data).drop i)
  | none => ""

/-- Model of JS `toLowerCase` (ASCII case mapping). -/
def toLowerString (s : String) : String := String.mk (s.data.map Char.toLower)

/-! ### StatisticsTracker (`src/src/statistics.ts`) -/
/-- The mutable fields of `RepositoryStatistics`. -/
structure RepositoryStatistics where
  totalCharacters : Nat
  fileTypes : List (String × Nat)
  largestFile : Option (String × Nat)
  processedDirectories : List String
  currentTokens : Nat
deriving Repr, DecidableEq

/-- Fresh tracker state (also the state `reset()` restores). -/
def RepositoryStatistics.initial : RepositoryStatistics :=
  ⟨0, [], none, [], 0⟩

/-- Histogram bump `fileTypes[ext] = (fileTypes[ext] || 0) + 1`; JS object
keys keep insertion order. -/
def bumpFileType (m : List (String × Nat)) (ext : String) : List (String × Nat) :=
  match m with
  | [] => [(ext, 1)]
  | (k, v) :: rest => if k = ext then (k, v + 1) :: rest else (k, v) :: bumpFileType rest ext

/-- Largest-file update shared by `RepositoryStatistics.trackFile`
(`src/src/statistics.ts` lines 34-37) and the packager loop
(`src/src/packager.ts` lines 417-420): replace only on a strictly greater
line count. -/
def updateLargest (cur : Option (String × Nat)) (path : String) (lines : Nat) :
    Option (String × Nat) :=
  match cur with
  | none => some (path, lines)
  | some (p, l) => if lines > l then some (path, lines) else some (p, l)

/-- Insert into the `processedDirectories` JS `Set`. -/
def insertDirectory (s : List String) (d : String) : List String :=
  if d ∈ s then s else s ++ [d]

/-- The file-type key `path.extname(path).toLowerCase() || '.txt'`. -/
def fileTypeKey (path : String) : String :=
  if toLowerString (extname path) = "" then ".txt" else toLowerString (extname path)

/-- `RepositoryStatistics.trackFile` from `src/src/statistics.ts` lines
22-44 (the optional `basePath` argument plays no role in the updated
fields). -/
def RepositoryStatistics.trackFile (st : RepositoryStatistics) (fi : FileInfo) :
    RepositoryStatistics :=
  { totalCharacters := st.totalCharacters + fi.content.length
    currentTokens := st.currentTokens + calculateTokens fi.content
    fileTypes := bumpFileType st.fileTypes (fileTypeKey fi.path)
    largestFile := updateLargest st.largestFile fi.path fi.lines
    processedDirectories :=
      if dirname fi.path ≠ "." ∧ dirname fi.path ≠ "" then
        insertDirectory st.processedDirectories (dirname fi.path)
      else st.processedDirectories }

/-- `calculateAverageFileSize` from `src/src/statistics.ts` lines 112-118:
`round(totalLines / count)`, `0` for an empty list. -/
def calculateAverageFileSize (files : List FileInfo) : Nat :=
  if files.length = 0 then 0
  else jsRoundDiv (files.foldl (fun t fi => t + fi.lines) 0) files.length

/-! ### C8: largest-file tie-breaking -/
/-- Spec-side: the maximum line count among `(path, lines)` pairs. -/
def maxLines : List (String × Nat) → Nat
  | [] => 0
  | p :: ps => max p.2 (maxLines ps)

/-- Spec-side: the first pair attaining the maximum line count. -/
def firstAttainingMax (pairs : List (String × Nat)) : Option (String × Nat) :=
  pairs.find? (fun pr => pr.2 == maxLines pairs)

/-- Folding the strictly-greater update over a pair list. -/
def foldLargest (cur : Option (String × Nat)) (pairs : List (String × Nat)) :
    Option (String × Nat) :=
  pairs.foldl (fun c pr => updateLargest c pr.1 pr.2) cur

/-! ### Packager admission loop (`src/src/packager.ts` lines 361-457) -/
/-- Error classification of a failed per-file stat/read (`error.code` in
the catch handler); the code only selects the logged message from it. -/
inductive ReadErrorCode where
  | enoent
  | eacces
  | eisdir
  | other
deriving Repr, DecidableEq

/-- The filesystem's behaviour for one candidate path during the
processing loop: `missing` models `fs.existsSync` returning false,
`failed` models a throwing `stat`/`readFileContents`, and `ok size
content` models a successful `stat` (byte size) followed by
`readFileContents` resolving with `content`. -/
inductive CandidateOutcome where
  | missing
  | failed (code : ReadErrorCode)
  | ok (size : Nat) (content : List Char)
deriving Repr, DecidableEq

/-- One discovered candidate path together with the filesystem's
behaviour for it. -/
structure Candidate where
  path : String
  outcome : CandidateOutcome
deriving Repr, DecidableEq

/-- JS truthiness guard `this.maxFileSize && stats.size > this.maxFileSize`. -/
def sizeSkip (maxFileSize : Option Nat) (size : Nat) : Bool :=
  match maxFileSize with
  | none => false
  | some m => decide (m ≠ 0 ∧ size > m)

/-- JS truthiness guard
`this.maxTokens && (currentTokens + fileTokens) > this.maxTokens`. -/
def tokenStop (maxTokens : Option Nat) (current fileTokens : Nat) : Bool :=
  match maxTokens with
  | none => false
  | some m => decide (m ≠ 0 ∧ current + fileTokens > m)

/-- JS `content.split('\n')`. -/
def splitNewlines : List Char → List (List Char)
  | [] => [[]]
  | c :: cs =>
    match splitNewlines cs with
    | [] => [[c]]
    | h :: t => if c = '\n' then [] :: h :: t else (c :: h) :: t

/-- `content.split('\n').length`, the line count of an admitted file. -/
def countLines (content : List Char) : Nat := (splitNewlines content).length

/-- The mutable locals of the processing loop in `analyzeRepository`. -/
structure LoopState where
  fileInfos : List FileInfo
  currentTokens : Nat
  totalCharacters : Nat
  fileTypes : List (String × Nat)
  largestFile : Option (String × Nat)
  processedDirectories : List String
deriving Repr, DecidableEq

/-- Loop locals before the first candidate. -/
def LoopState.initial : LoopState := ⟨[], 0, 0, [], none, []⟩

/-- One admission (`src/src/packager.ts` lines 408-433): bump the token
total, the statistics and the record list. -/
def admitFile (st : LoopState) (path : String) (size : Nat) (content : List Char) :
    LoopState :=
  { fileInfos := st.fileInfos ++ [⟨path, size, countLines content, content⟩]
    currentTokens := st.currentTokens + calculateTokens content
    totalCharacters := st.totalCharacters + content.length
    fileTypes := bumpFileType st.fileTypes (fileTypeKey path)
    largestFile := updateLargest st.largestFile path (countLines content)
    processedDirectories :=
      if dirname path ≠ "." ∧ dirname path ≠ "" then
        insertDirectory st.processedDirectories (dirname path)
      else st.processedDirectories }

/-- The candidate-processing loop of `analyzeRepository`
(`src/src/packager.ts` lines 372-445): missing and failed candidates are
skipped, an oversized candidate is skipped, the token guard breaks out of
the loop, and everything else is admitted. -/
def processFiles (maxFileSize maxTokens : Option Nat) :
    List Candidate → LoopState → LoopState
  | [], st => st
  | c :: cs, st =>
    match c.outcome with
    | .missing => processFiles maxFileSize maxTokens cs st
    | .failed _ => processFiles maxFileSize maxTokens cs st
    | .ok size content =>
      if sizeSkip maxFileSize size then processFiles maxFileSize maxTokens cs st
      else if tokenStop maxTokens st.currentTokens (calculateTokens content) then st
      else processFiles maxFileSize maxTokens cs (admitFile st c.path size content)

/-- The final `repoInfo` aggregate filled in at
`src/src/packager.ts` lines 447-457. -/
structure RepoInfo where
  files : List FileInfo
  totalFiles : Nat
  totalLines : Nat
  totalTokens : Nat
  totalCharacters : Nat
  directoriesProcessed : Nat
  fileTypes : List (String × Nat)
  largestFile : Option (String × Nat)
  averageFileSize : Nat
deriving Repr, DecidableEq

/-- `calculateTotalLines` from `src/src/packager.ts` lines 460-462. -/
def calculateTotalLines (files : List FileInfo) : Nat :=
  files.foldl (fun t fi => t + fi.lines) 0

/-- `calculateTotalTokens` from `src/src/packager.ts` lines 464-466. -/
def calculateTotalTokens (files : List FileInfo) : Nat :=
  files.foldl (fun t fi => t + calculateTokens fi.content) 0

/-- Lines 447-457 of `analyzeRepository`: assemble `repoInfo` from the
loop state, including the division-guarded average file size. -/
def finalizeRepoInfo (st : LoopState) : RepoInfo :=
  { files := st.fileInfos
    totalFiles := st.fileInfos.length
    totalLines := calculateTotalLines st.fileInfos
    totalTokens := calculateTotalTokens st.fileInfos
    totalCharacters := st.totalCharacters
    directoriesProcessed := st.processedDirectories.length
    fileTypes := st.fileTypes
    largestFile := st.largestFile
    averageFileSize :=
      if st.fileInfos.length > 0 then
        jsRoundDiv (calculateTotalLines st.fileInfos) st.fileInfos.length
      else 0 }

/-- The processing phase of `analyzeRepository` on a candidate list. -/
def analyzeCandidates (maxFileSize maxTokens : Option Nat) (cs : List Candidate) : RepoInfo :=
  finalizeRepoInfo (processFiles maxFileSize maxTokens cs LoopState.initial)

/-- The `repoInfo` produced by a run that admitted nothing. -/
def zeroRepoInfo : RepoInfo := ⟨[], 0, 0, 0, 0, 0, [], none, 0⟩

/-- A candidate that is not admitted: missing, failing, or size-skipped. -/
def unusableCandidate (mf : Option Nat) (c : Candidate) : Prop :=
  c.outcome = .missing ∨ (∃ e, c.outcome = .failed e)
    ∨ ∃ size content, c.outcome = .ok size content ∧ sizeSkip mf size = true

/-! ### C1: token-budget early stop -/
/-- A readable candidate file, given as `(path, byte size, reader content)`. -/
def okCandidate (t : String × Nat × List Char) : Candidate :=
  ⟨t.1, .ok t.2.1 t.2.2⟩

/-- The token estimate of one readable candidate. -/
def tokenCost (t : String × Nat × List Char) : Nat := calculateTokens t.2.2

/-- The running token total after the first `i` candidates are admitted. -/
def prefixTokens (ts : List (String × Nat × List Char)) (i : Nat) : Nat :=
  ((ts.take i).map tokenCost).sum

/-- The record the loop pushes for an admitted candidate. -/
def mkAdmitted (t : String × Nat × List Char) : FileInfo :=
  ⟨t.1, t.2.1, countLines t.2.2, t.2.2⟩

/-- Admitting a list of readable candidates in order. -/
def admitAll (st : LoopState) (ts : List (String × Nat × List Char)) : LoopState :=
  ts.foldl (fun s t => admitFile s t.1 t.2.1 t.2.2) st

/-- A candidate whose reader content is 40 characters, hence 10 tokens. -/
def tenTokenFile (name : String) : String × Nat × List Char :=
  (name, 40, List.replicate 40 'x')

/-! ### Path collection phase (`src/src/packager.ts` lines 311-359) -/
/-- What `existsSync`/`statSync` report for a path: an existing file, an
existing directory, something else that exists, or nothing (`none`). -/
inductive PathKind where
  | file
  | dir
  | other
deriving Repr, DecidableEq

/-- Model of POSIX `path.join` for the plain relative names produced by
discovery (no `.`/`..` segments, so no normalization occurs). -/
def pathJoin (d f : String) : String := d ++ "/" ++ f

/-- The collection loop of `analyzeRepository` (`src/src/packager.ts`
lines 311-359): `fsys` answers `existsSync`/`statSync`, `readable`
answers `accessSync`, `collect` gives `collectFiles`' output for a
directory, and `relative` models `path.relative(primaryPath, ·)` (with
the `|| singlePath` fallback for an empty result). -/
def collectAllFilePaths (fsys : String → Option PathKind) (readable : String → Bool)
    (collect : String → List String) (relative : String → String) :
    List String → List String
  | [] => []
  | p :: ps =>
    (match fsys p with
     | none => []
     | some .file =>
       if readable p then [if relative p = "" then p else relative p] else []
     | some .dir => if readable p then (collect p).map (pathJoin p) else []
     | some .other => []) ++ collectAllFilePaths fsys readable collect relative ps

/-- The overlapping-inputs scenario for C9: the same directory `"d"`
passed twice, containing one readable file `"a.txt"` of content `"abc"`. -/
def c9Candidates : List Candidate :=
  (collectAllFilePaths (fun p => if p = "d" then some PathKind.dir else none)
      (fun _ => true) (fun _ => ["a.txt"]) (fun p => p) ["d", "d"]).map
    (fun p => ⟨p, CandidateOutcome.ok 3 "abc".data⟩)

/-! ### C10: counts come from the reader's content string -/
/-- The metadata placeholder `readFileContents` returns for a
binary-extension file: `"[Binary file: name (size bytes)]"`. -/
def binaryPlaceholder (name : String) (size : Nat) : List Char :=
  ("[Binary file: " ++ name ++ " (" ++ Nat.repr size ++ " bytes)]").data

/-! ### C3: primary path resolution (`src/src/packager.ts` lines 292-303
and 472-477) -/
/-- Lines 292-303 of `analyzeRepository`: take the first input that is an
existing directory; failing that (or when the found string is empty,
which is falsy in JS), inspect only the FIRST input: its parent directory
when it is an existing file, the input itself when it exists as something
else, nothing when it does not exist; finally `|| '.'` replaces an unset
or empty result with `'.'`. -/
def resolvePrimaryPath (fsys : String → Option PathKind) (dn : String → String)
    (paths : List String) : String :=
  let found := paths.find? (fun p => fsys p == some PathKind.dir)
  let step1 : Option String :=
    match found with
    | some p => if p = "" then none else some p
    | none => none
  let step2 : Option String :=
    match step1 with
    | some p => some p
    | none =>
      match paths with
      | [] => none
      | p0 :: _ =>
        match fsys p0 with
        | none => none
        | some PathKind.file => some (dn p0)
        | some _ => some p0
  match step2 with
  | some s => if s = "" then "." else s
  | none => "."

/-- `generatePackage` (`src/src/packager.ts` line 474): the displayed
file-system location is resolved from `this.paths[0] || '.'`, not from
the primary path computed in `analyzeRepository`. -/
def displayBasePath (paths : List String) : String :=
  match paths with
  | [] => "."
  | p :: _ => if p = "" then "." else p

/-- Modelled from the spec sentence for C3: the first existing-directory
input; else the parent directory of the first existing *file* input
(scanning all inputs); else the current working directory `"."`. -/
def specPrimaryPath (fsys : String → Option PathKind) (dn : String → String)
    (paths : List String) : String :=
  match paths.find? (fun p => fsys p == some PathKind.dir) with
  | some d => d
  | none =>
    match paths.find? (fun p => fsys p == some PathKind.file) with
    | some f => dn f
    | none => "."

/-- The C3 counterexample environment: the first input does not exist and
the second is an existing file `"d/real.txt"` whose parent is `"d"`. -/
def c3Fsys : String → Option PathKind := fun p =>
  if p = "d/real.txt" then some PathKind.file else none

/-- Parent-directory answers for the C3 counterexample. -/
def c3Dirname : String → String := fun p => if p = "d/real.txt" then "d" else "."

/-! ### CodeSummarizer: import extraction (`extractImports`,
`src/unnamed/part_007` lines 72-90) -/
/-- The ASCII members of the JS regex class `\s`. -/
def jsSpace (c : Char) : Bool :=
  c = ' ' || c = '\t' || c = '\n' || c = '\r' || c = '\x0b' || c = '\x0c'

/-- JS regex class `\w`: `[A-Za-z0-9_]`. -/
def jsWord (c : Char) : Bool :=
  (c ≥ 'a' && c ≤ 'z') || (c ≥ 'A' && c ≤ 'Z') || (c ≥ '0' && c ≤ '9') || c = '_'

/-- The quote class of the source regexes: apostrophe, double quote,
backtick. -/
def jsQuote (c : Char) : Bool := c = '\x27' || c = '"' || c = '\x60'

/-- All possible remainders, in backtracking priority order, after one
piece of a regex has matched a prefix of the input. -/
abbrev MatchRes := List (List Char)

/-- Literal text. -/
def pLit (s : String) (l : List Char) : MatchRes :=
  if s.data.isPrefixOf l then [l.drop s.data.length] else []

/-- A single literal character. -/
def pChar (t : Char) (l : List Char) : MatchRes :=
  match l with
  | [] => []
  | c :: cs => if c = t then [cs] else []

/-- Length of the maximal run of class characters at the head of the
input. -/
def classRun (cls : Char → Bool) : List Char → Nat
  | [] => 0
  | c :: cs => if cls c then classRun cls cs + 1 else 0

/-- Greedy `+` on a character class: between the maximal run and one
character, longest first. -/
def pPlus (cls : Char → Bool) (l : List Char) : MatchRes :=
  (List.range (classRun cls l)).map (fun k => l.drop (classRun cls l - k))

/-- Greedy `*` on a character class: like `+` but an empty match is the
last option. -/
def pStar (cls : Char → Bool) (l : List Char) : MatchRes :=
  pPlus cls l ++ [l]

/-- Sequence a set of remainders with the next piece. -/
def mseq (rs : MatchRes) (p : List Char → MatchRes) : MatchRes :=
  (rs.map p).flatten

/-- Ordered alternation. -/
def pAlt (ps : List (List Char → MatchRes)) (l : List Char) : MatchRes :=
  (ps.map (fun p => p l)).flatten

/-- Ordered alternation made optional (`(?:A|B|C)?`): the empty match is
the last option. -/
def pOpt (ps : List (List Char → MatchRes)) (l : List Char) : MatchRes :=
  pAlt ps l ++ [l]

/-- The braces branch `{[^}]+}` of the source regexes. -/
def pBraces (l : List Char) : MatchRes :=
  mseq (mseq (pChar '\x7b' l) (pPlus (fun c => !(c = '\x7d')))) (pChar '\x7d')

/-- The namespace-import branch `\*\s+as\s+\w+`. -/
def pStarAs (l : List Char) : MatchRes :=
  mseq (mseq (mseq (mseq (pChar '*' l) (pPlus jsSpace)) (pLit "as")) (pPlus jsSpace))
    (pPlus jsWord)

/-- The capture `['"`]([^'"`]+)['"`]`: a quote, then the maximal non-empty
run of non-quote characters, then a quote; returns the captured specifier
and the remainder. (Shorter runs would end at a non-quote character, so
the greedy run is the only possible match.) -/
def pCapture (l : List Char) : Option (List Char × List Char) :=
  match l with
  | [] => none
  | q :: rest =>
    if jsQuote q then
      let n := classRun (fun c => !jsQuote c) rest
      if n = 0 then none
      else
        match rest.drop n with
        | [] => none
        | q2 :: rest2 => if jsQuote q2 then some (rest.take n, rest2) else none
    else none

/-- `pCapture` followed by a literal `)`. -/
def pCaptureClose (l : List Char) : Option (List Char × List Char) :=
  match pCapture l with
  | none => none
  | some (spec, rest) =>
    match rest with
    | [] => none
    | c :: rest2 => if c = ')' then some (spec, rest2) else none

/-- First successful continuation in priority order. -/
def firstSome (f : List Char → Option (List Char × List Char)) :
    MatchRes → Option (List Char × List Char)
  | [] => none
  | r :: rest =>
    match f r with
    | some x => some x
    | none => firstSome f rest

/-- The import regex
`import\s+(?:{[^}]+}|\*\s+as\s+\w+|\w+)?\s*from\s+['"`]([^'"`]+)['"`]`
tried at the start of the input: on success, the captured module
specifier and the remainder after the whole match. -/
def importAt (l : List Char) : Option (List Char × List Char) :=
  firstSome pCapture
    (mseq (mseq (mseq (mseq (pLit "import" l) (pPlus jsSpace))
      (pOpt [pBraces, pStarAs, pPlus jsWord])) (pStar jsSpace))
      (fun r => mseq (pLit "from" r) (pPlus jsSpace)))

/-- The require regex
`(?:const|let|var)\s+(?:{[^}]+}|\w+)\s*=\s*require\(['"`]([^'"`]+)['"`]\)`
tried at the start of the input. -/
def requireAt (l : List Char) : Option (List Char × List Char) :=
  firstSome pCaptureClose
    (mseq (mseq (mseq (mseq (mseq
      (pAlt [pLit "const", pLit "let", pLit "var"] l) (pPlus jsSpace))
      (pAlt [pBraces, pPlus jsWord])) (pStar jsSpace))
      (fun r => mseq (pLit "=" r) (pStar jsSpace)))
      (pLit "require("))

/-- Global `exec` scanning: find the leftmost match, record its capture,
resume after the match; otherwise advance one character. -/
def scanMatches (matchAt : List Char → Option (List Char × List Char)) :
    Nat → List Char → List (List Char)
  | 0, _ => []
  | fuel + 1, l =>
    match matchAt l with
    | some (spec, rest) => spec :: scanMatches matchAt fuel rest
    | none =>
      match l with
      | [] => []
      | _ :: tl => scanMatches matchAt fuel tl

/-- All captures of a regex over the whole input, in match order. -/
def execRegex (matchAt : List Char → Option (List Char × List Char))
    (l : List Char) : List (List Char) :=
  scanMatches matchAt l.length l

/-- `[...new Set(imports)]`: de-duplication keeping the first occurrence. -/
def dedupKeepFirst (seen : List (List Char)) : List (List Char) → List (List Char)
  | [] => []
  | x :: xs =>
    if x ∈ seen then dedupKeepFirst seen xs
    else x :: dedupKeepFirst (x :: seen) xs

/-- `extractImports` (`src/unnamed/part_007` lines 72-90) for a
script-like language: all `import ... from` captures first, then all
`require(...)` captures, de-duplicated keeping first occurrences of that
concatenated order. -/
def extractImports (content : List Char) : List (List Char) :=
  dedupKeepFirst [] (execRegex importAt content ++ execRegex requireAt content)

/-- Modelled from the spec sentence for C7: one left-to-right scan
collecting each `import`/`require` occurrence as it is reached, so the
specifiers are ordered by first textual occurrence; then de-duplicated. -/
def scanMatchesCombined : Nat → List Char → List (List Char)
  | 0, _ => []
  | fuel + 1, l =>
    match importAt l with
    | some (spec, rest) => spec :: scanMatchesCombined fuel rest
    | none =>
      match requireAt l with
      | some (spec, rest) => spec :: scanMatchesCombined fuel rest
      | none =>
        match l with
        | [] => []
        | _ :: tl => scanMatchesCombined fuel tl

/-- Modelled from the spec sentence for C7: the import list ordered by
first textual occurrence. -/
def specOrderedImports (content : List Char) : List (List Char) :=
  dedupKeepFirst [] (scanMatchesCombined content.length content)

/-- The C7 counterexample source: a `require` occurrence textually before
an `import` occurrence. -/
def c7Input : List Char :=
  "const a = require(\"x\")\nimport y from \"z\"".data

theorem jsRoundDiv_eq_round (a b : Nat) (hb : 0 < b) :
    (jsRoundDiv a b : ℤ) = round ((a : ℚ) / (b : ℚ)) := by
  rw [round_eq, jsRoundDiv]
  have hb2 : ((2 * b : ℕ) : ℚ) ≠ 0 := by
    exact_mod_cast Nat.mul_ne_zero (by norm_num) hb.ne'
  have : (a : ℚ) / (b : ℚ) + 1 / 2 = ((2 * a + b : ℕ) : ℚ) / ((2 * b : ℕ) : ℚ) := by
    push_cast
    field_simp
    ring
  rw [this]
  rw [Rat.floor_natCast_div_natCast]
  exact_mod_cast rfl

/-- C2: for every string `c` the token estimate is `round(length(c)/4)`;
`tokenEstimate "abcd" = 1`, `tokenEstimate "abcdefgh" = 2`,
`tokenEstimate "abc" = 1`; and the estimate depends only on the character
count of `c`. -/
theorem c2_tokenEstimate_round :
    (∀ c : List Char, (calculateTokens c : ℤ) = round ((c.length : ℚ) / 4))
      ∧ calculateTokens "abcd".data = 1
      ∧ calculateTokens "abcdefgh".data = 2
      ∧ calculateTokens "abc".data = 1
      ∧ ∀ c d : List Char, c.length = d.length → calculateTokens c = calculateTokens d := by
  refine ⟨fun c => ?_, by decide, by decide, by decide, fun c d h => ?_⟩
  · have := jsRoundDiv_eq_round c.length 4 (by norm_num)
    simpa [calculateTokens] using this
  · simp [calculateTokens, h]

theorem c2_tokenEstimate_round_witness :
    calculateTokens "ab".data = calculateTokens "cd".data :=
  c2_tokenEstimate_round.2.2.2.2 "ab".data "cd".data (by decide)

theorem specCutAtLastBoundary_eq (l : List Char) :
    specCutAtLastBoundary l =
      match lastNewlinePos l with
      | some i => l.take i
      | none => l := rfl

theorem lastNewlinePos_replicate_a (n : Nat) :
    lastNewlinePos (List.replicate n 'a') = none := by
  induction n with
  | zero => rfl
  | succ k ih => simp [List.replicate_succ, lastNewlinePos, ih]

theorem lastNewlinePos_cons (c : Char) (cs : List Char) :
    lastNewlinePos (c :: cs) =
      match lastNewlinePos cs with
      | some i => some (i + 1)
      | none => if c = '\n' then some 0 else none := rfl

theorem c5Input_length : c5Input.length = 16385 := by
  rw [c5Input, List.length_cons, List.length_replicate]
  rfl

theorem c5Input_take :
    c5Input.take maxContentSize = '\n' :: List.replicate 16383 'a' := by
  rw [c5Input, show maxContentSize = 16383 + 1 from rfl, List.take_succ_cons,
    List.take_replicate]
  rw [Nat.min_eq_left (by norm_num)]

theorem c5Input_lastNewline :
    lastNewlinePos ('\n' :: List.replicate 16383 'a') = some 0 := by
  rw [lastNewlinePos_cons, lastNewlinePos_replicate_a]
  rfl

theorem c5_code_eval :
    truncateOversized c5Input
      = ('\n' :: List.replicate 16383 'a') ++ truncationMarker 16384 16385 := by
  have hgt : c5Input.length > maxContentSize := by
    rw [c5Input_length]; norm_num [maxContentSize]
  have hlen2 : ('\n' :: List.replicate 16383 'a').length = 16384 := by
    rw [List.length_cons, List.length_replicate]
  rw [truncateOversized, if_pos hgt]
  rw [c5Input_take]
  simp only [c5Input_lastNewline]
  simp only [if_neg (lt_irrefl 0), hlen2, c5Input_length, List.cons_append]

theorem c5_spec_eval :
    specTruncateOversized c5Input = truncationMarker 0 16385 := by
  have hgt : c5Input.length > maxContentSize := by
    rw [c5Input_length]; norm_num [maxContentSize]
  rw [specTruncateOversized, if_pos hgt]
  rw [c5Input_take, specCutAtLastBoundary_eq]
  simp only [c5Input_lastNewline]
  simp only [List.take_zero, List.length_nil, c5Input_length, List.nil_append]

theorem lastNewlinePos_none_spec :
    ∀ (l : List Char), lastNewlinePos l = none → ∀ j : Nat, l[j]? ≠ some '\n' := by
  intro l
  induction l with
  | nil => intro _ j; simp
  | cons c cs ih =>
    intro h j
    rw [lastNewlinePos_cons] at h
    cases h1 : lastNewlinePos cs with
    | some k => rw [h1] at h; exact absurd h (by simp)
    | none =>
      rw [h1] at h
      by_cases hc : c = '\n'
      · rw [if_pos hc] at h; exact absurd h (by simp)
      · match j with
        | 0 => simp [hc]
        | j + 1 => simpa using ih h1 j

theorem lastNewlinePos_some_spec :
    ∀ (l : List Char) (i : Nat), lastNewlinePos l = some i →
      l[i]? = some '\n' ∧ ∀ j : Nat, i < j → l[j]? ≠ some '\n' := by
  intro l
  induction l with
  | nil => intro i h; exact absurd h (by simp [lastNewlinePos])
  | cons c cs ih =>
    intro i h
    rw [lastNewlinePos_cons] at h
    cases h1 : lastNewlinePos cs with
    | some k =>
      rw [h1] at h
      simp only [Option.some.injEq] at h
      subst h
      obtain ⟨hget, hafter⟩ := ih k h1
      refine ⟨by simpa using hget, ?_⟩
      intro j hj
      match j, hj with
      | j + 1, hj => simpa using hafter j (by omega)
    | none =>
      rw [h1] at h
      by_cases hc : c = '\n'
      · rw [if_pos hc] at h
        simp only [Option.some.injEq] at h
        subst h
        refine ⟨by simp [hc], ?_⟩
        intro j hj
        match j, hj with
        | j + 1, _ => simpa using lastNewlinePos_none_spec cs h1 j
      · rw [if_neg hc] at h
        exact absurd h (by simp)

/-- C5 counterexample: for content consisting of a leading newline and no
other newline in the 16 KiB head, the code keeps the whole 16 KiB head
(because of the `lastNewline > 0` test) instead of cutting at the line
boundary at index 0 that the claim requires. -/
theorem c5_truncation_counterexample :
    truncateOversized c5Input ≠ specTruncateOversized c5Input := by
  intro h
  have hlen := congrArg List.length h
  rw [c5_code_eval, c5_spec_eval, List.length_append, List.length_cons,
    List.length_replicate] at hlen
  have hsmall : (truncationMarker 0 16385).length < 16384 := by decide
  omega

/-- C5 (amended): content of at most 16 KiB comes back unchanged; longer
content comes back as a kept text `f` followed by the truncation marker
stating `f`'s character count and the original character count, where `f`
is the 16 KiB head cut at its last newline when that newline sits at a
strictly positive index, and the whole 16 KiB head otherwise (in
particular a newline at index 0 is not used as a cut point, and a head
without any newline is kept whole). -/
theorem c5_truncation_amended (content : List Char) :
    (content.length ≤ maxContentSize → truncateOversized content = content)
    ∧ (maxContentSize < content.length →
        ∃ f : List Char,
          truncateOversized content = f ++ truncationMarker f.length content.length
          ∧ ((∃ i, 0 < i ∧ (content.take maxContentSize)[i]? = some '\n'
                ∧ (∀ j : Nat, i < j → (content.take maxContentSize)[j]? ≠ some '\n')
                ∧ f = content.take i)
             ∨ ((∀ j : Nat, 0 < j → (content.take maxContentSize)[j]? ≠ some '\n')
                ∧ f = content.take maxContentSize))) := by
  constructor
  · intro hle
    rw [truncateOversized, if_neg (by omega)]
  · intro hgt
    rw [truncateOversized, if_pos hgt]
    cases h1 : lastNewlinePos (content.take maxContentSize) with
    | none =>
      refine ⟨content.take maxContentSize, ?_, Or.inr ⟨?_, rfl⟩⟩
      · simp only [h1]
      · intro j _
        exact lastNewlinePos_none_spec _ h1 j
    | some i =>
      obtain ⟨hget, hafter⟩ := lastNewlinePos_some_spec _ i h1
      by_cases hi : 0 < i
      · have hilen : i < (content.take maxContentSize).length := by
          by_contra hcon
          rw [List.getElem?_eq_none (by omega)] at hget
          exact absurd hget (by simp)
        have htt : (content.take maxContentSize).take i = content.take i := by
          rw [List.take_take, Nat.min_eq_left]
          have := content.length_take_le maxContentSize
          omega
        refine ⟨content.take i, ?_, Or.inl ⟨i, hi, hget, hafter, rfl⟩⟩
        simp only [h1, if_pos hi, htt]
      · have hz : i = 0 := by omega
        subst hz
        refine ⟨content.take maxContentSize, ?_, Or.inr ⟨?_, rfl⟩⟩
        · simp only [h1, if_neg hi]
        · intro j hj
          exact hafter j hj

theorem c5_truncation_amended_witness :
    truncateOversized "ab\ncd".data = "ab\ncd".data :=
  (c5_truncation_amended "ab\ncd".data).1 (by decide)

/-- C6: with an active recency window of `d` days, a discovered candidate
is retained iff the later of its mtime and ctime falls within the last
`d` days of evaluation time; a candidate whose stat fails (`stat f =
none`) is dropped. -/
theorem c6_recency_filter (d : Nat) (hd : d ≠ 0) (stat : String → Option (Int × Int))
    (nowMs : Int) (files : List String) (f : String) :
    f ∈ filterRecent (some d) stat nowMs files ↔
      f ∈ files ∧ ∃ mtime ctime, stat f = some (mtime, ctime)
        ∧ nowMs - (d : Int) * msPerDay ≤ max mtime ctime := by
  rw [filterRecent, if_neg hd, List.mem_filter]
  apply and_congr_right
  intro _
  cases hs : stat f with
  | none => simp [isFileRecentlyModified, hs]
  | some p =>
    obtain ⟨mt, ct⟩ := p
    simp only [isFileRecentlyModified, hs, decide_eq_true_eq, ge_iff_le,
      Option.some.injEq, Prod.mk.injEq]
    exact ⟨fun h => ⟨mt, ct, ⟨rfl, rfl⟩, h⟩, by rintro ⟨m, c, ⟨rfl, rfl⟩, h⟩; exact h⟩

theorem c6_recency_filter_witness :
    "a.ts" ∈ filterRecent (some 7) (fun _ => some (1000, 2000)) 1500 ["a.ts"] :=
  (c6_recency_filter 7 (by decide) (fun _ => some (1000, 2000)) 1500 ["a.ts"] "a.ts").2
    ⟨by decide, 1000, 2000, rfl, by decide⟩

theorem maxLines_cons (p : String × Nat) (ps : List (String × Nat)) :
    maxLines (p :: ps) = max p.2 (maxLines ps) := rfl

theorem firstAttainingMax_absorb (a b : String × Nat) (ps : List (String × Nat)) :
    firstAttainingMax (a :: b :: ps)
      = firstAttainingMax ((if b.2 > a.2 then b else a) :: ps) := by
  by_cases hb : b.2 > a.2
  · rw [if_pos hb]
    unfold firstAttainingMax
    have hm1 : maxLines (b :: ps) = max b.2 (maxLines ps) := maxLines_cons b ps
    have hmax : maxLines (a :: b :: ps) = maxLines (b :: ps) := by
      rw [maxLines_cons a (b :: ps)]
      omega
    rw [hmax]
    have e0 : (a.2 == maxLines (b :: ps)) = false := by
      simp only [beq_eq_false_iff_ne, ne_eq]
      omega
    simp only [List.find?_cons, e0]
  · rw [if_neg hb]
    unfold firstAttainingMax
    have hm1 : maxLines (a :: ps) = max a.2 (maxLines ps) := maxLines_cons a ps
    have hmax : maxLines (a :: b :: ps) = maxLines (a :: ps) := by
      rw [maxLines_cons a (b :: ps), maxLines_cons b ps, hm1]
      omega
    rw [hmax]
    by_cases ha : a.2 = maxLines (a :: ps)
    · have e1 : (a.2 == maxLines (a :: ps)) = true := by
        simp only [beq_iff_eq]
        exact ha
      simp only [List.find?_cons, e1]
    · have hgt2 : a.2 < maxLines (a :: ps) := by omega
      have e1 : (a.2 == maxLines (a :: ps)) = false := by
        simp only [beq_eq_false_iff_ne, ne_eq]
        exact ha
      have e2 : (b.2 == maxLines (a :: ps)) = false := by
        simp only [beq_eq_false_iff_ne, ne_eq]
        omega
      simp only [List.find?_cons, e1, e2]

theorem foldLargest_some (ps : List (String × Nat)) :
    ∀ a : String × Nat, foldLargest (some a) ps = firstAttainingMax (a :: ps) := by
  induction ps with
  | nil =>
    intro a
    show some a = firstAttainingMax [a]
    unfold firstAttainingMax
    have e : (a.2 == maxLines [a]) = true := by
      have h0 : maxLines [a] = max a.2 (maxLines []) := maxLines_cons a []
      simp only [beq_iff_eq]
      have h1 : maxLines ([] : List (String × Nat)) = 0 := rfl
      omega
    simp only [List.find?_cons, e]
  | cons b ps ih =>
    intro a
    have hstep : foldLargest (some a) (b :: ps)
        = foldLargest (updateLargest (some a) b.1 b.2) ps := rfl
    rw [hstep]
    have hupd : updateLargest (some a) b.1 b.2 = some (if b.2 > a.2 then b else a) := by
      obtain ⟨a1, a2⟩ := a
      obtain ⟨b1, b2⟩ := b
      unfold updateLargest
      by_cases h : b2 > a2 <;> simp [h]
    rw [hupd, ih, firstAttainingMax_absorb]

/-- C8: largest-file tracking updates only on a strictly greater line
count, so over any sequence of tracked files the recorded largest file is
the first file in processing order attaining the maximum line count. -/
theorem c8_largest_first_max (files : List FileInfo) :
    (files.foldl RepositoryStatistics.trackFile RepositoryStatistics.initial).largestFile
      = firstAttainingMax (files.map fun fi => (fi.path, fi.lines)) := by
  have key : ∀ (fs : List FileInfo) (st : RepositoryStatistics),
      (fs.foldl RepositoryStatistics.trackFile st).largestFile
        = foldLargest st.largestFile (fs.map fun fi => (fi.path, fi.lines)) := by
    intro fs
    induction fs with
    | nil => intro st; rfl
    | cons f fs ih =>
      intro st
      rw [List.foldl_cons, ih]
      rfl
  rw [key]
  cases hf : files.map (fun fi => (fi.path, fi.lines)) with
  | nil => rfl
  | cons p ps =>
    show foldLargest (updateLargest none p.1 p.2) ps = _
    rw [show updateLargest none p.1 p.2 = some (p.1, p.2) from rfl]
    rw [foldLargest_some]

theorem processFiles_skip_error (mf mt : Option Nat) (c : Candidate)
    (hc : c.outcome = .missing ∨ ∃ e, c.outcome = .failed e) :
    ∀ (pre post : List Candidate) (st : LoopState),
      processFiles mf mt (pre ++ c :: post) st = processFiles mf mt (pre ++ post) st := by
  intro pre
  induction pre with
  | nil =>
    intro post st
    obtain ⟨p, o⟩ := c
    rcases hc with h | ⟨e, h⟩
    · simp only at h
      subst h
      rfl
    · simp only at h
      subst h
      rfl
  | cons d pre ih =>
    intro post st
    obtain ⟨q, od⟩ := d
    cases od with
    | missing =>
      show processFiles mf mt (pre ++ c :: post) st = processFiles mf mt (pre ++ post) st
      exact ih post st
    | failed e =>
      show processFiles mf mt (pre ++ c :: post) st = processFiles mf mt (pre ++ post) st
      exact ih post st
    | ok size content =>
      show (if sizeSkip mf size then processFiles mf mt (pre ++ c :: post) st
            else if tokenStop mt st.currentTokens (calculateTokens content) then st
            else processFiles mf mt (pre ++ c :: post) (admitFile st q size content))
          = (if sizeSkip mf size then processFiles mf mt (pre ++ post) st
            else if tokenStop mt st.currentTokens (calculateTokens content) then st
            else processFiles mf mt (pre ++ post) (admitFile st q size content))
      by_cases hs : sizeSkip mf size
      · rw [if_pos hs, if_pos hs, ih]
      · rw [if_neg hs, if_neg hs]
        by_cases ht : tokenStop mt st.currentTokens (calculateTokens content)
        · rw [if_pos ht, if_pos ht]
        · rw [if_neg ht, if_neg ht, ih]

theorem processFiles_all_unusable (mf mt : Option Nat) :
    ∀ (cs : List Candidate) (st : LoopState),
      (∀ c ∈ cs, unusableCandidate mf c) →
      processFiles mf mt cs st = st := by
  intro cs
  induction cs with
  | nil => intro st _; rfl
  | cons c cs ih =>
    intro st h
    have hc := h c (List.mem_cons_self c cs)
    have hrest : ∀ d ∈ cs, unusableCandidate mf d := fun d hd => h d (List.mem_cons_of_mem c hd)
    obtain ⟨p, o⟩ := c
    rcases hc with h1 | ⟨e, h1⟩ | ⟨size, content, h1, h2⟩ <;> simp only at h1 <;> subst h1
    · exact ih st hrest
    · exact ih st hrest
    · show (if sizeSkip mf size then processFiles mf mt cs st else _) = st
      rw [if_pos h2]
      exact ih st hrest

/-- C4: no per-file error aborts the run — an erroring candidate is
skipped with the loop state untouched — and a run in which every
candidate is unusable still produces a result with zero files and
all-zero statistics (average file size 0, with no division by zero). -/
theorem c4_error_tolerance (mf mt : Option Nat) :
    (∀ (c : Candidate), (c.outcome = .missing ∨ ∃ e, c.outcome = .failed e) →
      ∀ (pre post : List Candidate) (st : LoopState),
        processFiles mf mt (pre ++ c :: post) st = processFiles mf mt (pre ++ post) st)
    ∧ ∀ cs : List Candidate,
        (∀ c ∈ cs, unusableCandidate mf c) →
        analyzeCandidates mf mt cs = zeroRepoInfo := by
  constructor
  · exact fun c hc => processFiles_skip_error mf mt c hc
  · intro cs h
    rw [analyzeCandidates, processFiles_all_unusable mf mt cs LoopState.initial h]
    rfl

theorem c4_error_tolerance_witness :
    (processFiles (some 1) none
        ([⟨"a.ts", CandidateOutcome.ok 2 "ok".data⟩]
          ++ ⟨"gone.ts", CandidateOutcome.missing⟩
            :: [⟨"b.ts", CandidateOutcome.ok 2 "no".data⟩]) LoopState.initial
      = processFiles (some 1) none
        ([⟨"a.ts", CandidateOutcome.ok 2 "ok".data⟩]
          ++ [⟨"b.ts", CandidateOutcome.ok 2 "no".data⟩]) LoopState.initial)
    ∧ analyzeCandidates (some 1) none
        [⟨"x.ts", CandidateOutcome.missing⟩,
         ⟨"y.ts", CandidateOutcome.failed ReadErrorCode.eacces⟩,
         ⟨"z.ts", CandidateOutcome.ok 5 "abc".data⟩] = zeroRepoInfo :=
  ⟨(c4_error_tolerance (some 1) none).1 ⟨"gone.ts", CandidateOutcome.missing⟩
      (Or.inl rfl) [⟨"a.ts", CandidateOutcome.ok 2 "ok".data⟩]
      [⟨"b.ts", CandidateOutcome.ok 2 "no".data⟩] LoopState.initial,
   (c4_error_tolerance (some 1) none).2 _ (by
      intro c hc
      fin_cases hc
      · exact Or.inl rfl
      · exact Or.inr (Or.inl ⟨ReadErrorCode.eacces, rfl⟩)
      · exact Or.inr (Or.inr ⟨5, "abc".data, rfl, by decide⟩))⟩

theorem prefixTokens_zero (ts : List (String × Nat × List Char)) :
    prefixTokens ts 0 = 0 := rfl

theorem prefixTokens_cons_succ (t : String × Nat × List Char)
    (ts : List (String × Nat × List Char)) (i : Nat) :
    prefixTokens (t :: ts) (i + 1) = tokenCost t + prefixTokens ts i := by
  simp [prefixTokens, List.take_succ_cons]

theorem admitAll_currentTokens (ts : List (String × Nat × List Char)) :
    ∀ st : LoopState, (admitAll st ts).currentTokens
      = st.currentTokens + prefixTokens ts ts.length := by
  induction ts with
  | nil => intro st; simp [admitAll, prefixTokens]
  | cons t ts ih =>
    intro st
    show (admitAll (admitFile st t.1 t.2.1 t.2.2) ts).currentTokens = _
    rw [ih, List.length_cons, prefixTokens_cons_succ]
    show st.currentTokens + calculateTokens t.2.2 + prefixTokens ts ts.length = _
    rw [tokenCost]
    omega

theorem admitAll_fileInfos (ts : List (String × Nat × List Char)) :
    ∀ st : LoopState, (admitAll st ts).fileInfos = st.fileInfos ++ ts.map mkAdmitted := by
  induction ts with
  | nil => intro st; simp [admitAll]
  | cons t ts ih =>
    intro st
    show (admitAll (admitFile st t.1 t.2.1 t.2.2) ts).fileInfos = _
    rw [ih]
    show (st.fileInfos ++ [⟨t.1, t.2.1, countLines t.2.2, t.2.2⟩]) ++ ts.map mkAdmitted = _
    rw [List.map_cons, List.append_assoc]
    rfl

theorem processFiles_budget_cutoff (m : Nat) (hm : m ≠ 0) :
    ∀ (ts : List (String × Nat × List Char)) (i : Nat) (st : LoopState)
      (hi : i < ts.length),
      st.currentTokens + prefixTokens ts i + tokenCost (ts.get ⟨i, hi⟩) > m →
      (∀ j (hj : j < i),
        st.currentTokens + prefixTokens ts j + tokenCost (ts.get ⟨j, lt_trans hj hi⟩) ≤ m) →
      processFiles none (some m) (ts.map okCandidate) st = admitAll st (ts.take i) := by
  intro ts
  induction ts with
  | nil => intro i st hi; exact absurd hi (by simp)
  | cons t ts ih =>
    intro i st hi hstop hbefore
    cases i with
    | zero =>
      show (if sizeSkip none t.2.1 then processFiles none (some m) (ts.map okCandidate) st
            else if tokenStop (some m) st.currentTokens (calculateTokens t.2.2) then st
            else processFiles none (some m) (ts.map okCandidate)
              (admitFile st t.1 t.2.1 t.2.2)) = admitAll st []
      rw [show sizeSkip none t.2.1 = false from rfl]
      rw [if_neg (by simp)]
      rw [if_pos ?hstop]
      · rfl
      case hstop =>
        rw [tokenStop]
        simp only [decide_eq_true_eq]
        refine ⟨hm, ?_⟩
        have := hstop
        rw [prefixTokens_zero] at this
        simpa using this
    | succ i =>
      have h0 : st.currentTokens + calculateTokens t.2.2 ≤ m := by
        have := hbefore 0 (Nat.succ_pos i)
        simpa [prefixTokens_zero, tokenCost] using this
      show (if sizeSkip none t.2.1 then processFiles none (some m) (ts.map okCandidate) st
            else if tokenStop (some m) st.currentTokens (calculateTokens t.2.2) then st
            else processFiles none (some m) (ts.map okCandidate)
              (admitFile st t.1 t.2.1 t.2.2))
          = admitAll st ((t :: ts).take (i + 1))
      rw [show sizeSkip none t.2.1 = false from rfl]
      rw [if_neg (by simp)]
      rw [if_neg ?hgo]
      case hgo =>
        rw [tokenStop]
        simp only [decide_eq_true_eq, not_and, not_lt]
        intro _
        omega
      have hcur : (admitFile st t.1 t.2.1 t.2.2).currentTokens
          = st.currentTokens + tokenCost t := rfl
      have hi' : i < ts.length := by simpa using hi
      rw [ih i (admitFile st t.1 t.2.1 t.2.2) hi' ?hstop' ?hbefore']
      · show admitAll (admitFile st t.1 t.2.1 t.2.2) (ts.take i) = admitAll st (t :: ts.take i)
        rfl
      case hstop' =>
        rw [hcur]
        have heq : prefixTokens (t :: ts) (i + 1) = tokenCost t + prefixTokens ts i :=
          prefixTokens_cons_succ t ts i
        have hget : (t :: ts).get ⟨i + 1, hi⟩ = ts.get ⟨i, hi'⟩ := rfl
        rw [hget] at hstop
        omega
      case hbefore' =>
        intro j hj
        have hjs := hbefore (j + 1) (by omega)
        rw [hcur]
        have heq : prefixTokens (t :: ts) (j + 1) = tokenCost t + prefixTokens ts j :=
          prefixTokens_cons_succ t ts j
        have hget : (t :: ts).get ⟨j + 1, lt_trans (by omega : j + 1 < i + 1) hi⟩
            = ts.get ⟨j, lt_trans hj hi'⟩ := rfl
        rw [hget] at hjs
        omega

/-- C1: with a configured (non-zero) total-token budget and readable
candidates processed in discovery order, the first candidate whose token
estimate pushes the running total strictly over the budget stops the loop
entirely: exactly the candidates before it are admitted, and neither it
nor any later candidate is admitted. -/
theorem c1_token_budget_stop (m : Nat) (hm : m ≠ 0)
    (ts : List (String × Nat × List Char)) (i : Nat) (hi : i < ts.length)
    (hstop : prefixTokens ts i + tokenCost (ts.get ⟨i, hi⟩) > m)
    (hbefore : ∀ j (hj : j < i),
      prefixTokens ts j + tokenCost (ts.get ⟨j, lt_trans hj hi⟩) ≤ m) :
    (processFiles none (some m) (ts.map okCandidate) LoopState.initial).fileInfos
      = (ts.take i).map mkAdmitted := by
  have h0 : LoopState.initial.currentTokens = 0 := rfl
  rw [processFiles_budget_cutoff m hm ts i LoopState.initial hi
    (by rw [h0]; omega) (fun j hj => by rw [h0]; have := hbefore j hj; omega)]
  rw [admitAll_fileInfos]
  rfl

theorem c1_token_budget_stop_witness :
    (processFiles none (some 25)
        ([tenTokenFile "a.ts", tenTokenFile "b.ts", tenTokenFile "c.ts"].map okCandidate)
        LoopState.initial).fileInfos
      = ([tenTokenFile "a.ts", tenTokenFile "b.ts", tenTokenFile "c.ts"].take 2).map
          mkAdmitted :=
  c1_token_budget_stop 25 (by decide)
    [tenTokenFile "a.ts", tenTokenFile "b.ts", tenTokenFile "c.ts"] 2 (by decide)
    (by decide) (by decide)

/-! ### Shared loop invariants (for C9 and C10) -/
theorem processFiles_invariants (mf mt : Option Nat) :
    ∀ (cs : List Candidate) (st : LoopState),
      ∃ l : List FileInfo,
        (processFiles mf mt cs st).fileInfos = st.fileInfos ++ l
        ∧ (l.map FileInfo.path).Sublist (cs.map Candidate.path)
        ∧ (∀ fi ∈ l, fi.lines = countLines fi.content)
        ∧ (processFiles mf mt cs st).totalCharacters
            = st.totalCharacters + (l.map (fun fi => fi.content.length)).sum := by
  intro cs
  induction cs with
  | nil =>
    intro st
    exact ⟨[], by simp [processFiles], by simp, by simp, by simp [processFiles]⟩
  | cons c cs ih =>
    intro st
    obtain ⟨p, o⟩ := c
    cases o with
    | missing =>
      obtain ⟨l, h1, h2, h3, h4⟩ := ih st
      exact ⟨l, h1, h2.cons p, h3, h4⟩
    | failed e =>
      obtain ⟨l, h1, h2, h3, h4⟩ := ih st
      exact ⟨l, h1, h2.cons p, h3, h4⟩
    | ok size content =>
      have hred : processFiles mf mt (⟨p, .ok size content⟩ :: cs) st
          = (if sizeSkip mf size then processFiles mf mt cs st
             else if tokenStop mt st.currentTokens (calculateTokens content) then st
             else processFiles mf mt cs (admitFile st p size content)) := rfl
      rw [hred]
      by_cases hs : sizeSkip mf size
      · rw [if_pos hs]
        obtain ⟨l, h1, h2, h3, h4⟩ := ih st
        exact ⟨l, h1, h2.cons p, h3, h4⟩
      · rw [if_neg hs]
        by_cases ht : tokenStop mt st.currentTokens (calculateTokens content)
        · rw [if_pos ht]
          exact ⟨[], by simp, by simp, by simp, by simp⟩
        · rw [if_neg ht]
          obtain ⟨l, h1, h2, h3, h4⟩ := ih (admitFile st p size content)
          refine ⟨⟨p, size, countLines content, content⟩ :: l, ?_, ?_, ?_, ?_⟩
          · rw [h1]
            show (st.fileInfos ++ [⟨p, size, countLines content, content⟩]) ++ l = _
            rw [List.append_assoc]
            rfl
          · exact h2.cons₂ p
          · intro fi hfi
            rcases List.mem_cons.1 hfi with rfl | hmem
            · rfl
            · exact h3 fi hmem
          · rw [h4]
            have e1 : (admitFile st p size content).totalCharacters
                = st.totalCharacters + content.length := rfl
            have e2 : (FileInfo.mk p size (countLines content) content).content.length
                = content.length := rfl
            rw [List.map_cons, List.sum_cons]
            omega

/-- C9 counterexample: passing the same directory twice makes the
analysis result contain two `FileRecord`s with the identical path
`"d/a.txt"` — the path values are not pairwise distinct. -/
theorem c9_duplicate_paths_counterexample :
    ¬ ((analyzeCandidates none none c9Candidates).files.map FileInfo.path).Nodup := by
  decide

/-- C9 (amended): the admitted records' paths form a sublist of the
candidate paths, so they are pairwise distinct whenever the discovered
candidate paths are; overlapping inputs, however, can make the discovery
output repeat a path, and the duplicate is then admitted twice. -/
theorem c9_nodup_of_candidates_nodup (mf mt : Option Nat) (cs : List Candidate)
    (h : (cs.map Candidate.path).Nodup) :
    ((analyzeCandidates mf mt cs).files.map FileInfo.path).Nodup := by
  obtain ⟨l, h1, h2, _, _⟩ := processFiles_invariants mf mt cs LoopState.initial
  have hfiles : (analyzeCandidates mf mt cs).files
      = (processFiles mf mt cs LoopState.initial).fileInfos := rfl
  rw [hfiles, h1]
  show (([] : List FileInfo) ++ l |>.map FileInfo.path).Nodup
  rw [List.nil_append]
  exact h.sublist h2

theorem c9_nodup_of_candidates_nodup_witness :
    ((analyzeCandidates none none
        [⟨"a.ts", CandidateOutcome.ok 2 "ab".data⟩,
         ⟨"b.ts", CandidateOutcome.ok 2 "cd".data⟩]).files.map FileInfo.path).Nodup :=
  c9_nodup_of_candidates_nodup none none
    [⟨"a.ts", CandidateOutcome.ok 2 "ab".data⟩,
     ⟨"b.ts", CandidateOutcome.ok 2 "cd".data⟩] (by decide)

theorem splitNewlines_ne_nil (l : List Char) : splitNewlines l ≠ [] := by
  cases l with
  | nil => simp [splitNewlines]
  | cons c cs =>
    rw [show splitNewlines (c :: cs)
        = (match splitNewlines cs with
           | [] => [[c]]
           | h :: t => if c = '\n' then [] :: h :: t else (c :: h) :: t) from rfl]
    cases h : splitNewlines cs with
    | nil => simp
    | cons hd tl =>
      by_cases hc : c = '\n' <;> simp [hc]

theorem splitNewlines_cons (c : Char) (cs : List Char) (hd : List Char)
    (tl : List (List Char)) (h : splitNewlines cs = hd :: tl) :
    splitNewlines (c :: cs) = if c = '\n' then [] :: hd :: tl else (c :: hd) :: tl := by
  rw [show splitNewlines (c :: cs)
      = (match splitNewlines cs with
         | [] => [[c]]
         | h :: t => if c = '\n' then [] :: h :: t else (c :: h) :: t) from rfl]
  rw [h]

theorem splitNewlines_length (l : List Char) :
    (splitNewlines l).length = l.count '\n' + 1 := by
  induction l with
  | nil => rfl
  | cons c cs ih =>
    cases h : splitNewlines cs with
    | nil => exact absurd h (splitNewlines_ne_nil cs)
    | cons hd tl =>
      rw [h] at ih
      rw [splitNewlines_cons c cs hd tl h, List.count_cons]
      by_cases hc : c = '\n'
      · rw [if_pos hc]
        simp only [List.length_cons] at ih ⊢
        simp [hc]
        omega
      · rw [if_neg hc]
        simp only [List.length_cons] at ih ⊢
        simp [hc]
        omega

theorem countLines_eq_count (l : List Char) : countLines l = l.count '\n' + 1 := by
  rw [countLines, splitNewlines_length]

theorem digitChar_ne_newline (n : Nat) : Nat.digitChar n ≠ '\n' := by
  rcases Nat.lt_or_ge n 16 with h | h
  · interval_cases n <;> decide
  · have e : Nat.digitChar n = '*' := by
      unfold Nat.digitChar
      repeat rw [if_neg (by omega)]
    rw [e]
    decide

theorem toDigitsCore_no_newline :
    ∀ (f : Nat) (b n : Nat) (ds : List Char), '\n' ∉ ds →
      '\n' ∉ Nat.toDigitsCore b f n ds := by
  intro f
  induction f with
  | zero => intro b n ds h; exact h
  | succ f ih =>
    intro b n ds h
    rw [show Nat.toDigitsCore b (f + 1) n ds
        = (if n / b = 0 then Nat.digitChar (n % b) :: ds
           else Nat.toDigitsCore b f (n / b) (Nat.digitChar (n % b) :: ds)) from rfl]
    have hd : '\n' ∉ Nat.digitChar (n % b) :: ds := by
      intro hmem
      rcases List.mem_cons.1 hmem with he | he
      · exact digitChar_ne_newline (n % b) he.symm
      · exact h he
    by_cases hz : n / b = 0
    · rw [if_pos hz]
      exact hd
    · rw [if_neg hz]
      exact ih b (n / b) (Nat.digitChar (n % b) :: ds) hd

theorem repr_no_newline (n : Nat) : '\n' ∉ (Nat.repr n).data := by
  show '\n' ∉ (Nat.toDigits 10 n).asString.data
  rw [show (Nat.toDigits 10 n).asString.data = Nat.toDigits 10 n from rfl]
  exact toDigitsCore_no_newline (n + 1) 10 n [] (by simp)

theorem binaryPlaceholder_count_newline (name : String) (size : Nat)
    (h : '\n' ∉ name.data) : (binaryPlaceholder name size).count '\n' = 0 := by
  rw [binaryPlaceholder]
  rw [show ("[Binary file: " ++ name ++ " (" ++ Nat.repr size ++ " bytes)]").data
      = "[Binary file: ".data ++ name.data ++ " (".data ++ (Nat.repr size).data
        ++ " bytes)]".data from by simp [String.data_append]]
  simp only [List.count_append]
  rw [List.count_eq_zero.2 h, List.count_eq_zero.2 (repr_no_newline size)]
  decide

theorem foldl_add_map (f : FileInfo → Nat) :
    ∀ (l : List FileInfo) (a : Nat),
      l.foldl (fun t fi => t + f fi) a = a + (l.map f).sum := by
  intro l
  induction l with
  | nil => intro a; simp
  | cons x l ih =>
    intro a
    rw [List.foldl_cons, ih, List.map_cons, List.sum_cons]
    omega

/-- C10: every admitted record's line count is computed from the content
string the reader returned for it, the token and character totals are
sums over those same returned strings, and a binary-extension file's
placeholder text contributes exactly one line (it contains no newline)
and its own character length. -/
theorem c10_counts_from_reader (mf mt : Option Nat) (cs : List Candidate) :
    (∀ fi ∈ (analyzeCandidates mf mt cs).files, fi.lines = countLines fi.content)
    ∧ (analyzeCandidates mf mt cs).totalTokens
        = ((analyzeCandidates mf mt cs).files.map (fun fi => calculateTokens fi.content)).sum
    ∧ (analyzeCandidates mf mt cs).totalCharacters
        = ((analyzeCandidates mf mt cs).files.map (fun fi => fi.content.length)).sum
    ∧ ∀ (name : String) (size : Nat), '\n' ∉ name.data →
        countLines (binaryPlaceholder name size) = 1 := by
  obtain ⟨l, h1, _, h3, h4⟩ := processFiles_invariants mf mt cs LoopState.initial
  have hfiles : (analyzeCandidates mf mt cs).files
      = (processFiles mf mt cs LoopState.initial).fileInfos := rfl
  have hl : (analyzeCandidates mf mt cs).files = l := by
    rw [hfiles, h1]
    rfl
  refine ⟨?_, ?_, ?_, ?_⟩
  · intro fi hfi
    rw [hl] at hfi
    exact h3 fi hfi
  · have : (analyzeCandidates mf mt cs).totalTokens
        = calculateTotalTokens (processFiles mf mt cs LoopState.initial).fileInfos := rfl
    rw [this, h1]
    rw [show (LoopState.initial.fileInfos ++ l) = l from rfl]
    rw [calculateTotalTokens, foldl_add_map (fun fi => calculateTokens fi.content) l 0, hl]
    exact Nat.zero_add _
  · have : (analyzeCandidates mf mt cs).totalCharacters
        = (processFiles mf mt cs LoopState.initial).totalCharacters := rfl
    rw [this, h4, hl]
    exact Nat.zero_add _
  · intro name size h
    rw [countLines_eq_count, binaryPlaceholder_count_newline name size h]

theorem c10_counts_from_reader_witness :
    countLines (binaryPlaceholder "logo.png" 2048) = 1 :=
  (c10_counts_from_reader none none []).2.2.2 "logo.png" 2048 (by decide)

/-- C3 counterexample: with inputs `["missing.txt", "d/real.txt"]` the
code resolves the primary path to `"."` (the fallback only inspects the
first input), not to `"d"` as the claim requires, and the displayed
location base is `"missing.txt"`, which differs from the primary path
used for the VCS lookup. -/
theorem c3_primary_path_counterexample :
    resolvePrimaryPath c3Fsys c3Dirname ["missing.txt", "d/real.txt"]
        ≠ specPrimaryPath c3Fsys c3Dirname ["missing.txt", "d/real.txt"]
      ∧ displayBasePath ["missing.txt", "d/real.txt"]
        ≠ resolvePrimaryPath c3Fsys c3Dirname ["missing.txt", "d/real.txt"] := by
  decide

theorem find?_first_true {α : Type} (q : α → Bool) :
    ∀ (l : List α) (i : Nat) (hi : i < l.length),
      q (l.get ⟨i, hi⟩) = true →
      (∀ j (hj : j < i), q (l.get ⟨j, lt_trans hj hi⟩) = false) →
      l.find? q = some (l.get ⟨i, hi⟩) := by
  intro l
  induction l with
  | nil => intro i hi; exact absurd hi (by simp)
  | cons a l ih =>
    intro i hi hq hprev
    cases i with
    | zero => exact List.find?_cons_of_pos l hq
    | succ i =>
      have ha : q a = false := hprev 0 (Nat.succ_pos i)
      rw [List.find?_cons_of_neg l (by simp [ha])]
      exact ih i (by simpa using hi) hq
        (fun j hj => hprev (j + 1) (by omega))

/-- C3 (amended): the primary path is the first input that is an existing
directory (when that string is non-empty); with no existing-directory
input the fallback inspects only the first input — parent directory when
it is an existing file, the input itself when it exists as neither file
nor directory, and `'.'` when it does not exist; an empty list also gives
`'.'`. The document's displayed location comes from the first input path
alone and can differ from this primary path. -/
theorem c3_primary_path_amended (fsys : String → Option PathKind) (dn : String → String) :
    (∀ (paths : List String) (i : Nat) (hi : i < paths.length),
      fsys (paths.get ⟨i, hi⟩) = some PathKind.dir →
      (∀ j (hj : j < i), fsys (paths.get ⟨j, lt_trans hj hi⟩) ≠ some PathKind.dir) →
      paths.get ⟨i, hi⟩ ≠ "" →
      resolvePrimaryPath fsys dn paths = paths.get ⟨i, hi⟩)
    ∧ (∀ p0 rest, (∀ p ∈ p0 :: rest, fsys p ≠ some PathKind.dir) → fsys p0 = none →
        resolvePrimaryPath fsys dn (p0 :: rest) = ".")
    ∧ (∀ p0 rest, (∀ p ∈ p0 :: rest, fsys p ≠ some PathKind.dir) →
        fsys p0 = some PathKind.file →
        resolvePrimaryPath fsys dn (p0 :: rest) = (if dn p0 = "" then "." else dn p0))
    ∧ (∀ p0 rest, (∀ p ∈ p0 :: rest, fsys p ≠ some PathKind.dir) →
        fsys p0 = some PathKind.other →
        resolvePrimaryPath fsys dn (p0 :: rest) = (if p0 = "" then "." else p0))
    ∧ resolvePrimaryPath fsys dn [] = "."
    ∧ (∀ p rest, p ≠ "" → displayBasePath (p :: rest) = p) := by
  have hfindnone : ∀ (paths : List String),
      (∀ p ∈ paths, fsys p ≠ some PathKind.dir) →
      paths.find? (fun p => fsys p == some PathKind.dir) = none := by
    intro paths h
    rw [List.find?_eq_none]
    intro x hx
    simp only [beq_iff_eq]
    exact h x hx
  refine ⟨?_, ?_, ?_, ?_, rfl, ?_⟩
  · intro paths i hi hdir hprev hne
    have hfind : paths.find? (fun p => fsys p == some PathKind.dir)
        = some (paths.get ⟨i, hi⟩) := by
      apply find?_first_true
      · simp only [beq_iff_eq]
        exact hdir
      · intro j hj
        simp only [beq_eq_false_iff_ne, ne_eq]
        exact hprev j hj
    rw [resolvePrimaryPath.eq_def]
    simp only [hfind, if_neg hne]
  · intro p0 rest h h0
    rw [resolvePrimaryPath.eq_def]
    simp only [hfindnone (p0 :: rest) h, h0]
  · intro p0 rest h h0
    rw [resolvePrimaryPath.eq_def]
    simp only [hfindnone (p0 :: rest) h, h0]
  · intro p0 rest h h0
    rw [resolvePrimaryPath.eq_def]
    simp only [hfindnone (p0 :: rest) h, h0]
  · intro p rest hp
    rw [displayBasePath.eq_def]
    simp only [if_neg hp]

theorem c3_primary_path_amended_witness :
    resolvePrimaryPath (fun _ => some PathKind.dir) (fun _ => ".") ["d", "e"] = "d" := by
  have h := (c3_primary_path_amended (fun _ => some PathKind.dir) (fun _ => ".")).1
    ["d", "e"] 0 (by decide) rfl (fun j hj => absurd hj (by omega)) (by decide)
  exact h

/-- C7 counterexample: the code returns the `import` specifier before the
`require` specifier (two separate passes), while ordering by first
textual occurrence would put the `require` specifier `"x"` first. -/
theorem c7_import_order_counterexample :
    extractImports c7Input = ["z".data, "x".data]
      ∧ specOrderedImports c7Input = ["x".data, "z".data]
      ∧ extractImports c7Input ≠ specOrderedImports c7Input := by
  decide

theorem dedupKeepFirst_cons (seen : List (List Char)) (x : List Char)
    (xs : List (List Char)) :
    dedupKeepFirst seen (x :: xs)
      = if x ∈ seen then dedupKeepFirst seen xs
        else x :: dedupKeepFirst (x :: seen) xs := rfl

theorem dedupKeepFirst_mem :
    ∀ (xs seen : List (List Char)) (s : List Char),
      s ∈ dedupKeepFirst seen xs ↔ s ∈ xs ∧ s ∉ seen := by
  intro xs
  induction xs with
  | nil => intro seen s; simp [dedupKeepFirst]
  | cons x xs ih =>
    intro seen s
    rw [dedupKeepFirst_cons]
    by_cases hx : x ∈ seen
    · rw [if_pos hx, ih]
      constructor
      · rintro ⟨h1, h2⟩
        exact ⟨List.mem_cons_of_mem x h1, h2⟩
      · rintro ⟨h1, h2⟩
        rcases List.mem_cons.1 h1 with rfl | h1
        · exact absurd hx h2
        · exact ⟨h1, h2⟩
    · rw [if_neg hx]
      constructor
      · intro h
        rcases List.mem_cons.1 h with rfl | h
        · exact ⟨List.mem_cons_self s xs, hx⟩
        · obtain ⟨h1, h2⟩ := (ih (x :: seen) s).1 h
          exact ⟨List.mem_cons_of_mem x h1,
            fun hs => h2 (List.mem_cons_of_mem x hs)⟩
      · rintro ⟨h1, h2⟩
        rcases List.mem_cons.1 h1 with rfl | h1
        · exact List.mem_cons_self s _
        · by_cases hsx : s = x
          · subst hsx
            exact List.mem_cons_self s _
          · exact List.mem_cons_of_mem x ((ih (x :: seen) s).2
              ⟨h1, fun hs => by
                rcases List.mem_cons.1 hs with h | h
                · exact hsx h
                · exact h2 h⟩)

theorem dedupKeepFirst_nodup :
    ∀ (xs seen : List (List Char)), (dedupKeepFirst seen xs).Nodup := by
  intro xs
  induction xs with
  | nil => intro seen; simp [dedupKeepFirst]
  | cons x xs ih =>
    intro seen
    rw [dedupKeepFirst_cons]
    by_cases hx : x ∈ seen
    · rw [if_pos hx]
      exact ih seen
    · rw [if_neg hx]
      refine List.nodup_cons.2 ⟨?_, ih (x :: seen)⟩
      intro hmem
      obtain ⟨_, h2⟩ := (dedupKeepFirst_mem xs (x :: seen) x).1 hmem
      exact h2 (List.mem_cons_self x seen)

theorem dedupKeepFirst_sublist :
    ∀ (xs seen : List (List Char)), (dedupKeepFirst seen xs).Sublist xs := by
  intro xs
  induction xs with
  | nil => intro seen; simp [dedupKeepFirst]
  | cons x xs ih =>
    intro seen
    rw [dedupKeepFirst_cons]
    by_cases hx : x ∈ seen
    · rw [if_pos hx]
      exact (ih seen).cons x
    · rw [if_neg hx]
      exact (ih (x :: seen)).cons₂ x

/-- C7 (amended): the extracted list contains the module specifier of
every `import ... from` occurrence and every `require(...)` occurrence,
with duplicates removed (first occurrence kept), but it is ordered by the
scanner's two passes — all `import ... from` specifiers in textual order,
followed by the `require` specifiers in textual order — not globally by
first textual occurrence in the source. -/
theorem c7_imports_amended (content : List Char) :
    (extractImports content).Nodup
    ∧ (extractImports content).Sublist
        (execRegex importAt content ++ execRegex requireAt content)
    ∧ ∀ s, s ∈ extractImports content ↔
        s ∈ execRegex importAt content ++ execRegex requireAt content := by
  refine ⟨dedupKeepFirst_nodup _ [], dedupKeepFirst_sublist _ [], fun s => ?_⟩
  rw [extractImports, dedupKeepFirst_mem]
  simp
